import Mathlib

/-!
Verification of `tools/codegen/operator_versions/gen_mobile_upgraders.py`,
the generator of the mobile operator-upgrader registry
(`upgrader_mobile.cpp`).

The Python source is shallowly embedded below.  YAML/`torch` values that
flow through the generator are modelled by the inductive `YamlVal`; the
generator's dictionaries are modelled by association lists with
last-write-wins insertion (`dictInsert`) and first-match lookup
(`dictGet`), which together implement Python `dict` point semantics.
Python's `sorted` (a stable sort) is modelled by Mathlib's stable
`List.insertionSort` with the same comparator; Python string comparison
is code-point lexicographic, exactly `String.le`.  Fallible Python code
(raised exceptions) is modelled with `Except GenError`.
-/

/-- Scalar Python/YAML values flowing through the generator. -/
inductive PyScalar where
  | str (s : String)
  | int (n : Int)
  | bool (b : Bool)
  | none
deriving DecidableEq

/-- One element of a contents list: either a scalar (a constant, a type
string) or a list of scalars (an instruction or operator triple).  Two
levels of list nesting suffice for every shape the generator
consumes. -/
inductive YamlItem where
  | scalar (v : PyScalar)
  | list (xs : List PyScalar)
deriving DecidableEq

/-- Model of the Python/YAML values flowing through the generator:
`yaml.safe_load` and the in-memory tables produce strings, ints, bools,
`None` and lists. -/
inductive YamlVal where
  | str (s : String)
  | int (n : Int)
  | bool (b : Bool)
  | none
  | list (xs : List YamlItem)
deriving DecidableEq

/-- Model of Python `repr` on scalar values (strings are quoted,
`True`/`False`/`None` keep their Python spelling). -/
def scalarRepr : PyScalar → String
  | .str s => "\x27" ++ s ++ "\x27"
  | .int n => toString n
  | .bool b => if b then "True" else "False"
  | .none => "None"

/-- Model of Python `str` on scalar values, as used by template
substitution: identical to `scalarRepr` except that a string is rendered
without quotes. -/
def scalarStr : PyScalar → String
  | .str s => s
  | v => scalarRepr v

/-- Model of Python `repr` on one contents-list element. -/
def itemRepr : YamlItem → String
  | .scalar v => scalarRepr v
  | .list xs => "[" ++ String.intercalate ", " (xs.map scalarRepr) ++ "]"

/-- Model of Python `str` on one contents-list element (a top-level
string is rendered without quotes). -/
def itemStr : YamlItem → String
  | .scalar v => scalarStr v
  | .list xs => "[" ++ String.intercalate ", " (xs.map scalarRepr) ++ "]"

/-- Model of Python `str` on the values of `YamlVal`. -/
def pyStr : YamlVal → String
  | .str s => s
  | .int n => toString n
  | .bool b => if b then "True" else "False"
  | .none => "None"
  | .list xs => "[" ++ String.intercalate ", " (xs.map itemRepr) ++ "]"

/-- The hard errors the generator can raise.  The Python source raises
`ValueError` with distinct messages for constants and register sizes,
`KeyError` for an unknown `ByteCode` field or a failed index-map lookup,
and `IndexError` for a too-short token list; they are kept apart here. -/
inductive GenError where
  | unsupportedConstantType (v : YamlItem)
  | invalidRegisterSize (v : YamlVal)
  | unknownByteCodeField (key : String)
  | indexError
  | keyError (name : String)
deriving DecidableEq

/-- One upgrader description: the single-entry mapping
`{upgrader_name: bytecode}` of the input sequence, where the bytecode is
itself a mapping from table-kind name (`instructions`, `constants`,
`types`, `operators`, `register_size`) to its contents. -/
abbrev Bytecode := List (String × YamlVal)

abbrev UpgraderDict := List (String × Bytecode)

/-- The operator version table: `operator_name` to the list of upgrader
entries.  `construct_version_maps` reads only the `upgrader_name` field
of each entry, so an entry is modelled by that string. -/
abbrev VersionMap := List (String × List String)

abbrev IndexMap := List (String × Nat)

/-- Decidability of the string order through the underlying character
lists: `String.ltb` is iterator-based and does not reduce in the
kernel, while the equivalent list order does. -/
def strLeDec (s t : String) : Decidable (s ≤ t) :=
  decidable_of_iff (s.toList ≤ t.toList) String.le_iff_toList_le.symm

/-- The string order (Python string comparison: code-point
lexicographic) as a named relation carrying the kernel-reducible
decidability instance. -/
def strLe (a b : String) : Prop := a ≤ b

instance : DecidableRel strLe := fun a b => strLeDec a b

instance : IsTotal String strLe := ⟨fun a b => le_total a b⟩

instance : IsTrans String strLe := ⟨fun _ _ _ h h2 => le_trans h h2⟩

instance : IsAntisymm String strLe := ⟨fun _ _ h h2 => le_antisymm h h2⟩

/-- Python `dict` point lookup `m[k]` (as an `Option`). -/
def dictGet (m : List (String × α)) (k : String) : Option α :=
  (m.find? (fun p => p.1 == k)).map Prod.snd

/-- Python `dict` assignment `m[k] = v`: overwrites the value if the key
is present (keeping its position), appends otherwise. -/
def dictInsert (m : List (String × α)) (k : String) (v : α) : List (String × α) :=
  if m.any (fun p => p.1 == k) then
    m.map (fun p => if p.1 == k then (k, v) else p)
  else m ++ [(k, v)]

/-- Modelled from the spec: `CodeTemplate.substitute`
(`tools/codegen/code_template.py`, not under `src/`) is treated as plain
placeholder interpolation, per the spec's stance that textual rendering
is a pure formatting concern.  Each template below is the literal
template text of the source with its placeholders turned into function
arguments.  `ONE_INSTRUCTION` renders one instruction triple. -/
def ONE_INSTRUCTION (operator_name X N : String) : String :=
  "\n    Instruction\x7bOpCode::" ++ operator_name ++ ", " ++ X ++ ", " ++ N ++ "\x7d,"

/-- Template `INSTRUCTION_LIST` of the source. -/
def INSTRUCTION_LIST (instruction_list : String) : String :=
  "std::vector<Instruction>(\x7b\n        " ++ instruction_list ++ "\n    \x7d), // instructions list"

/-- Template `ONE_CONSTANT` of the source. -/
def ONE_CONSTANT (constant : String) : String :=
  "c10::IValue(" ++ constant ++ "),"

/-- Template `CONSTANT_LIST` of the source. -/
def CONSTANT_LIST (constant_list : String) : String :=
  "std::vector<c10::IValue>(\x7b\n        " ++ constant_list ++ "\n    \x7d), // constants list"

/-- Template `ONE_TYPE` of the source. -/
def ONE_TYPE (type_str : String) : String :=
  "c10::parseType(\"" ++ type_str ++ "\"),"

/-- Template `TYPE_LIST` of the source. -/
def TYPE_LIST (type_list : String) : String :=
  "std::vector<c10::TypePtr>(\x7b\n        " ++ type_list ++ "\n    \x7d), // types list"

/-- Template `ONE_OPERATOTR_STRING` of the source (name kept, typo and
all). -/
def ONE_OPERATOTR_STRING (operator_name overload_name num_of_args : String) : String :=
  "\n    OperatorString(\x7b\"" ++ operator_name ++ "\", \"" ++ overload_name ++ "\", " ++
    num_of_args ++ "\x7d),"

/-- Template `OPERATOR_STRING_LIST` of the source. -/
def OPERATOR_STRING_LIST (operator_string_list : String) : String :=
  "\n    std::vector<OperatorString>(\x7b\n        " ++ operator_string_list ++
    "\n    \x7d), // operators list"

/-- Source `construct_instruction`, inner loop: every instruction must be
indexable at 0, 1, 2 (Python raises `IndexError` otherwise; indexing a
scalar, which Python would reject with `TypeError`, is folded into the
same error constructor — the generator never exercises it); the three
components are rendered with `str` into `ONE_INSTRUCTION`. -/
def construct_instruction_parts : List YamlItem → Except GenError (List String)
  | [] => .ok []
  | .list fields :: rest =>
    match fields[0]?, fields[1]?, fields[2]? with
    | Option.some o, Option.some x, Option.some n => do
      let tail ← construct_instruction_parts rest
      return ONE_INSTRUCTION (scalarStr o) (scalarStr x) (scalarStr n) :: tail
    | _, _, _ => .error .indexError
  | _ :: _ => .error .indexError

/-- Source `construct_instruction`: renders each instruction and joins
the parts into `INSTRUCTION_LIST`. -/
def construct_instruction (instruction_list_from_yaml : List YamlItem) :
    Except GenError String :=
  (construct_instruction_parts instruction_list_from_yaml).map
    (fun parts => INSTRUCTION_LIST (String.join parts))

/-- Source `construct_constants`, loop body: a string is wrapped in
double quotes, a boolean becomes `true`/`false`, `None` becomes the
empty argument, anything else raises (`ValueError`, modelled as
`GenError.unsupportedConstantType` carrying the offending value). -/
def convert_constant : YamlItem → Except GenError String
  | .scalar (.str s) => .ok ("\"" ++ s ++ "\"")
  | .scalar (.bool b) => .ok (if b then "true" else "false")
  | .scalar .none => .ok ""
  | v => .error (.unsupportedConstantType v)

/-- Source `construct_constants`, list traversal in input order. -/
def construct_constants_parts : List YamlItem → Except GenError (List String)
  | [] => .ok []
  | v :: rest => do
    let c ← convert_constant v
    let tail ← construct_constants_parts rest
    return ONE_CONSTANT c :: tail

/-- Source `construct_constants`. -/
def construct_constants (constants_list_from_yaml : List YamlItem) :
    Except GenError String :=
  (construct_constants_parts constants_list_from_yaml).map
    (fun parts => CONSTANT_LIST (String.join parts))

/-- Source `construct_operators`, inner loop: each operator triple must
be indexable at 0, 1, 2. -/
def construct_operators_parts : List YamlItem → Except GenError (List String)
  | [] => .ok []
  | .list fields :: rest =>
    match fields[0]?, fields[1]?, fields[2]? with
    | Option.some nm, Option.some ov, Option.some na => do
      let tail ← construct_operators_parts rest
      return ONE_OPERATOTR_STRING (scalarStr nm) (scalarStr ov) (scalarStr na) :: tail
    | _, _, _ => .error .indexError
  | _ :: _ => .error .indexError

/-- Source `construct_operators`. -/
def construct_operators (operator_list_from_yaml : List YamlItem) :
    Except GenError String :=
  (construct_operators_parts operator_list_from_yaml).map
    (fun parts => OPERATOR_STRING_LIST (String.join parts))

/-- Source `construct_types`. -/
def construct_types (types_tr_list_from_yaml : List YamlItem) : String :=
  TYPE_LIST (String.join (types_tr_list_from_yaml.map (fun t => ONE_TYPE (itemStr t))))

/-- Source `construct_register_size`: `isinstance(x, int)` in Python also
accepts booleans (`bool` is a subclass of `int`), so both `int` and
`bool` pass the check and are rendered with `str`; every other value
raises (`ValueError`, modelled as `GenError.invalidRegisterSize`). -/
def construct_register_size : YamlVal → Except GenError String
  | .int n => .ok (toString n)
  | .bool b => .ok (if b then "True" else "False")
  | v => .error (.invalidRegisterSize v)

/-- The five field strings of one generated bytecode function record;
source `write_cpp` initializes all five to the empty string before
dispatching over the description's tables. -/
structure FieldStrings where
  instruction_list : String
  constant_list : String
  type_list : String
  register_size : String
  operator_list : String
deriving DecidableEq

/-- The all-empty initial `FieldStrings` of source `write_cpp`. -/
def emptyFields : FieldStrings :=
  { instruction_list := "", constant_list := "", type_list := "",
    register_size := "", operator_list := "" }

/-- Source `write_cpp`, dispatch body: `element = ByteCode[table_name]`
raises `KeyError` for a key outside the five enum members (modelled as
`GenError.unknownByteCodeField`); otherwise the matching field string is
(re)assigned from the corresponding `construct_*` call.  A list-typed
contents value is passed through as the list of its elements; the
iteration Python would perform over a non-list contents value is not
exercised by the generator and is modelled as `IndexError`. -/
def contentsElems : YamlVal → Except GenError (List YamlItem)
  | .list xs => .ok xs
  | _ => .error .indexError

/-- Source `write_cpp`, one iteration of the `for table_name, contents`
loop. -/
def apply_bytecode_field (fs : FieldStrings) (item : String × YamlVal) :
    Except GenError FieldStrings :=
  if item.1 = "instructions" then do
    let elems ← contentsElems item.2
    let s ← construct_instruction elems
    return { fs with instruction_list := s }
  else if item.1 = "constants" then do
    let elems ← contentsElems item.2
    let s ← construct_constants elems
    return { fs with constant_list := s }
  else if item.1 = "operators" then do
    let elems ← contentsElems item.2
    let s ← construct_operators elems
    return { fs with operator_list := s }
  else if item.1 = "types" then do
    let elems ← contentsElems item.2
    return { fs with type_list := construct_types elems }
  else if item.1 = "register_size" then do
    let s ← construct_register_size item.2
    return { fs with register_size := s }
  else .error (.unknownByteCodeField item.1)

/-- Source `write_cpp`, the whole `for table_name, contents in
bytecode.items()` loop. -/
def apply_bytecode_fields (fs : FieldStrings) : Bytecode → Except GenError FieldStrings
  | [] => .ok fs
  | item :: rest => do
    let fs2 ← apply_bytecode_field fs item
    apply_bytecode_fields fs2 rest

/-- One emitted entry of the bytecode function table (the data of
`ONE_UPGRADER_FUNCTION`/`ONE_UPGRADER_SRC` before final template
assembly). -/
structure RenderedFunction where
  upgrader_name : String
  fields : FieldStrings
deriving DecidableEq

/-- Source `write_cpp`, body of the emission loop for one description. -/
def render_upgrader_function (upgrader_name : String) (bytecode : Bytecode) :
    Except GenError RenderedFunction :=
  (apply_bytecode_fields emptyFields bytecode).map
    (fun fs => { upgrader_name := upgrader_name, fields := fs })

/-- The two skip-listed upgrader names of source `write_cpp` (the
temporary carve-out for the unfixed `aten::full` schemas). -/
def skip_upgraders : List String := ["full_names_0_4", "full_out_0_4"]

/-- Source `write_cpp`, emission loop over all descriptions: skip-listed
names are skipped (`continue`), every other description is rendered in
sequence order. -/
def build_function_table : UpgraderDict → Except GenError (List RenderedFunction)
  | [] => .ok []
  | (upgrader_name, bytecode) :: rest =>
    if upgrader_name = "full_names_0_4" ∨ upgrader_name = "full_out_0_4" then
      build_function_table rest
    else do
      let f ← render_upgrader_function upgrader_name bytecode
      let tail ← build_function_table rest
      return f :: tail

/-- Source `get_upgrader_bytecode_function_to_index_map`, recursion with
the `(map, index)` accumulator pair: every description advances the
counter; the map assignment overwrites on a repeated name. -/
def build_index_map (m : IndexMap) (index : Nat) : UpgraderDict → IndexMap
  | [] => m
  | (upgrader_name, _) :: rest => build_index_map (dictInsert m upgrader_name index) (index + 1) rest

/-- Source `get_upgrader_bytecode_function_to_index_map`. -/
def get_upgrader_bytecode_function_to_index_map (upgrader_dict : UpgraderDict) : IndexMap :=
  build_index_map [] 0 upgrader_dict

/-- One emitted entry of the operator version map: the data substituted
into `ONE_UPGRADER_IN_VERSION_MAP` (min and max are the raw tokens taken
from the upgrader name; the source never converts them to integers). -/
structure UpgraderRecord where
  min_version : String
  max_version : String
  upgrader_name : String
  index : Nat
deriving DecidableEq

/-- Model of Python `str.split` with a one-character separator, on the
character list: the list is cut at every occurrence of the separator,
and consecutive separators yield empty groups (`"div__Scalar_0_3"`
splits into `div`, ``, `Scalar`, `0`, `3`). -/
def splitCharGroups (sep : Char) : List Char → List (List Char)
  | [] => [[]]
  | c :: cs =>
    match splitCharGroups sep cs with
    | [] => [[]]
    | g :: gs => if c = sep then [] :: g :: gs else (c :: g) :: gs

/-- Model of Python `str.split` with a one-character separator
(`String.splitOn` has the same semantics but is defined by recursion the
kernel cannot evaluate). -/
def pySplitChar (s : String) (sep : Char) : List String :=
  (splitCharGroups sep s.data).map List.asString

/-- Source `construct_version_maps`, line `upgrader_info = ...`: split
the upgrader name on `_` and filter out empty tokens. -/
def parseUpgraderInfo (name : String) : List String :=
  (pySplitChar name '_').filter (fun token => token != "")

/-- Source `construct_version_maps`, loop body for one upgrader entry:
`upgrader_info[2]` / `upgrader_info[3]` raise `IndexError` when the
token list is too short, then the index-map lookup raises `KeyError`
when the upgrader name is absent.  No numeric validation is performed on
the two tokens. -/
def construct_one_record (m : IndexMap) (upgrader_name : String) :
    Except GenError UpgraderRecord :=
  match (parseUpgraderInfo upgrader_name)[2]? with
  | Option.none => .error .indexError
  | Option.some upgrader_min_version =>
    match (parseUpgraderInfo upgrader_name)[3]? with
    | Option.none => .error .indexError
    | Option.some upgrader_max_version =>
      match dictGet m upgrader_name with
      | Option.none => .error (.keyError upgrader_name)
      | Option.some bytecode_function_index =>
        .ok { min_version := upgrader_min_version,
              max_version := upgrader_max_version,
              upgrader_name := upgrader_name,
              index := bytecode_function_index }

/-- Source `construct_version_maps`, inner loop over one operator's
(sorted) upgrader entries, in order. -/
def construct_records (m : IndexMap) : List String → Except GenError (List UpgraderRecord)
  | [] => .ok []
  | name :: rest => do
    let r ← construct_one_record m name
    let tail ← construct_records m rest
    return r :: tail

/-- The two skip-listed operator names of source
`construct_version_maps`. -/
def skip_operators : List String := ["aten::full.names", "aten::full.out"]

/-- Source `construct_version_maps`, outer loop over the sorted operator
entries: the two skip-listed operators are skipped (`continue`), every
other operator contributes its record list in order. -/
def construct_version_map_ops (m : IndexMap) :
    VersionMap → Except GenError (List (String × List UpgraderRecord))
  | [] => .ok []
  | (op_name, upgrader_entry_list) :: rest =>
    if op_name = "aten::full.names" ∨ op_name = "aten::full.out" then
      construct_version_map_ops m rest
    else do
      let rs ← construct_records m upgrader_entry_list
      let tail ← construct_version_map_ops m rest
      return (op_name, rs) :: tail

/-- Comparator on association-list entries by their string key, the
`key=lambda item: item[0]` of the source. -/
def keyLe (p q : String × α) : Prop := p.1 ≤ q.1

instance : DecidableRel (@keyLe α) := fun p q => strLeDec p.1 q.1

instance : IsTotal (String × α) keyLe := ⟨fun p q => le_total p.1 q.1⟩

instance : IsTrans (String × α) keyLe := ⟨fun _ _ _ h h2 => le_trans h h2⟩

/-- Source `construct_version_maps`, the `sorted_version_map`
comprehension: the operator entries are sorted by operator name, and
each operator's upgrader-entry list is sorted by upgrader name.
Python's `sorted` is a stable sort and is modelled by the stable
`List.insertionSort` with the same comparator. -/
def sorted_version_map (version_map : VersionMap) : VersionMap :=
  (List.insertionSort keyLe version_map).map
    (fun p => (p.1, List.insertionSort strLe p.2))

/-- Source `construct_version_maps` (the operator version table, read in
the source from the process-global `torch._C._get_operator_version_map()`,
is an explicit parameter here). -/
def construct_version_maps (upgrader_bytecode_function_to_index_map : IndexMap)
    (version_map : VersionMap) : Except GenError (List (String × List UpgraderRecord)) :=
  construct_version_map_ops upgrader_bytecode_function_to_index_map
    (sorted_version_map version_map)

/-- The generated artifact: the data of the version map and of the
bytecode function table that `write_cpp` substitutes into
`UPGRADER_CPP_SRC` (final file assembly is pure concatenation of these
renderings). -/
structure GeneratedArtifact where
  version_map : List (String × List UpgraderRecord)
  function_table : List RenderedFunction
deriving DecidableEq

/-- Source `write_cpp` (file I/O aside): build the index map over the
whole description sequence, build the version map, then emit the
function table with the two skip-listed names removed. -/
def write_cpp_core (upgrader_dict : UpgraderDict) (version_map : VersionMap) :
    Except GenError GeneratedArtifact := do
  let m := get_upgrader_bytecode_function_to_index_map upgrader_dict
  let version_map_src ← construct_version_maps m version_map
  let table ← build_function_table upgrader_dict
  return { version_map := version_map_src, function_table := table }

/-- Source `sort_upgrader`: sort the description sequence by the (first)
name of each single-entry mapping. -/
def sort_upgrader (upgrader_list : UpgraderDict) : UpgraderDict :=
  List.insertionSort keyLe upgrader_list

/-- Source `main` (I/O aside): sort the descriptions, then run
`write_cpp` on the sorted sequence and the operator version table. -/
def generate (upgrader_list : UpgraderDict) (version_map : VersionMap) :
    Except GenError GeneratedArtifact :=
  write_cpp_core (sort_upgrader upgrader_list) version_map

deriving instance DecidableEq for Except

/-- The skip predicate of `construct_version_maps` on operator names, as
a named proposition for statements. -/
def isSkippedOp (op_name : String) : Prop :=
  op_name = "aten::full.names" ∨ op_name = "aten::full.out"

instance (op_name : String) : Decidable (isSkippedOp op_name) :=
  inferInstanceAs (Decidable (_ ∨ _))

/-- The skip predicate of `write_cpp` on upgrader names, as a named
proposition for statements. -/
def isSkippedUpgrader (upgrader_name : String) : Prop :=
  upgrader_name = "full_names_0_4" ∨ upgrader_name = "full_out_0_4"

instance (upgrader_name : String) : Decidable (isSkippedUpgrader upgrader_name) :=
  inferInstanceAs (Decidable (_ ∨ _))

theorem except_bind_ok {ε α β : Type} {x : Except ε α} {f : α → Except ε β} {b : β}
    (h : x.bind f = .ok b) : ∃ a, x = .ok a ∧ f a = .ok b := by
  cases x with
  | ok a => exact ⟨a, rfl, h⟩
  | error e => simp [Except.bind] at h

theorem except_map_ok {ε α β : Type} {x : Except ε α} {f : α → β} {b : β}
    (h : x.map f = .ok b) : ∃ a, x = .ok a ∧ f a = b := by
  cases x with
  | ok a => exact ⟨a, rfl, by simpa [Except.map] using h⟩
  | error e => simp [Except.map] at h

theorem dictGet_dictInsert_self (m : List (String × α)) (k : String) (v : α) :
    dictGet (dictInsert m k v) k = some v := by
  unfold dictGet dictInsert
  by_cases h : m.any (fun p => p.1 == k)
  · simp only [h, if_true]
    induction m with
    | nil => simp at h
    | cons p rest ih =>
      by_cases hp : p.1 = k
      · simp [List.find?, hp]
      · have hp2 : (p.1 == k) = false := by simpa using hp
        simp only [List.any_cons, hp2, Bool.false_or] at h
        simpa [List.find?, hp2] using ih h
  · simp only [h, if_false]
    induction m with
    | nil => simp [List.find?]
    | cons p rest ih =>
      have hp : (p.1 == k) = false := by
        by_contra hc
        refine h ?_
        simp only [List.any_cons]
        cases hb : (p.1 == k) <;> simp_all
      simp only [List.any_cons, hp, Bool.false_or] at h
      simpa [List.find?, hp] using ih h

theorem build_index_map_append (ul : UpgraderDict) (n : String) (bc : Bytecode) :
    ∀ (m : IndexMap) (i : Nat),
      build_index_map m i (ul ++ [(n, bc)]) =
        dictInsert (build_index_map m i ul) n (i + ul.length) := by
  induction ul with
  | nil => intro m i; simp [build_index_map]
  | cons e rest ih =>
    intro m i
    simp only [List.cons_append, build_index_map, List.append_eq]
    rw [ih, List.length_cons]
    congr 1
    omega

theorem construct_one_record_ok {m : IndexMap} {name : String} {r : UpgraderRecord}
    (h : construct_one_record m name = .ok r) :
    r.upgrader_name = name ∧
    (parseUpgraderInfo name)[2]? = some r.min_version ∧
    (parseUpgraderInfo name)[3]? = some r.max_version ∧
    dictGet m name = some r.index := by
  unfold construct_one_record at h
  cases h2 : (parseUpgraderInfo name)[2]? with
  | none => rw [h2] at h; cases h
  | some mn =>
    rw [h2] at h
    cases h3 : (parseUpgraderInfo name)[3]? with
    | none => rw [h3] at h; cases h
    | some mx =>
      rw [h3] at h
      cases h4 : dictGet m name with
      | none => rw [h4] at h; cases h
      | some i =>
        rw [h4] at h
        cases h
        exact ⟨rfl, rfl, rfl, rfl⟩

theorem construct_one_record_intro {m : IndexMap} {name mn mx : String} {i : Nat}
    (h2 : (parseUpgraderInfo name)[2]? = some mn)
    (h3 : (parseUpgraderInfo name)[3]? = some mx)
    (h4 : dictGet m name = some i) :
    construct_one_record m name = .ok ⟨mn, mx, name, i⟩ := by
  unfold construct_one_record
  rw [h2, h3, h4]

theorem construct_one_record_indexError_iff (m : IndexMap) (name : String) :
    construct_one_record m name = .error .indexError ↔
      (parseUpgraderInfo name).length < 4 := by
  unfold construct_one_record
  cases h2 : (parseUpgraderInfo name)[2]? with
  | none =>
    rw [List.getElem?_eq_none_iff] at h2
    exact iff_of_true rfl (by omega)
  | some mn =>
    have hlen2 : 2 < (parseUpgraderInfo name).length := by
      by_contra hc
      rw [List.getElem?_eq_none_iff.mpr (by omega)] at h2
      exact Option.noConfusion h2
    cases h3 : (parseUpgraderInfo name)[3]? with
    | none =>
      rw [List.getElem?_eq_none_iff] at h3
      exact iff_of_true rfl (by omega)
    | some mx =>
      have hlen3 : 3 < (parseUpgraderInfo name).length := by
        by_contra hc
        rw [List.getElem?_eq_none_iff.mpr (by omega)] at h3
        exact Option.noConfusion h3
      refine iff_of_false ?_ (by omega)
      cases h4 : dictGet m name <;> simp

theorem construct_one_record_keyError_iff (m : IndexMap) (name nm : String) :
    construct_one_record m name = .error (.keyError nm) ↔
      4 ≤ (parseUpgraderInfo name).length ∧ dictGet m name = Option.none ∧ nm = name := by
  unfold construct_one_record
  cases h2 : (parseUpgraderInfo name)[2]? with
  | none =>
    rw [List.getElem?_eq_none_iff] at h2
    refine iff_of_false (by simp) (by omega)
  | some mn =>
    cases h3 : (parseUpgraderInfo name)[3]? with
    | none =>
      rw [List.getElem?_eq_none_iff] at h3
      refine iff_of_false (by simp) (by omega)
    | some mx =>
      have hlen3 : 3 < (parseUpgraderInfo name).length := by
        by_contra hc
        rw [List.getElem?_eq_none_iff.mpr (by omega)] at h3
        exact Option.noConfusion h3
      cases h4 : dictGet m name with
      | none =>
        constructor
        · intro h
          have hnm : nm = name := by
            have := GenError.keyError.inj (Except.error.inj h)
            exact this.symm
          exact ⟨by omega, rfl, hnm⟩
        · intro h
          rw [h.2.2]
      | some i =>
        refine iff_of_false (by simp) (by simp [h4])

theorem construct_one_record_isOk_iff (m : IndexMap) (name : String) :
    (∃ r, construct_one_record m name = .ok r) ↔
      4 ≤ (parseUpgraderInfo name).length ∧ (dictGet m name).isSome := by
  unfold construct_one_record
  cases h2 : (parseUpgraderInfo name)[2]? with
  | none =>
    rw [List.getElem?_eq_none_iff] at h2
    refine iff_of_false (by simp) (by omega)
  | some mn =>
    cases h3 : (parseUpgraderInfo name)[3]? with
    | none =>
      rw [List.getElem?_eq_none_iff] at h3
      refine iff_of_false (by simp) (by omega)
    | some mx =>
      have hlen3 : 3 < (parseUpgraderInfo name).length := by
        by_contra hc
        rw [List.getElem?_eq_none_iff.mpr (by omega)] at h3
        exact Option.noConfusion h3
      cases h4 : dictGet m name with
      | none => refine iff_of_false (by simp) (by simp [h4])
      | some i => exact iff_of_true ⟨_, rfl⟩ ⟨by omega, by simp [h4]⟩

theorem construct_records_cons (m : IndexMap) (n : String) (rest : List String) :
    construct_records m (n :: rest) =
      (construct_one_record m n).bind (fun r =>
        (construct_records m rest).bind (fun tail => .ok (r :: tail))) := rfl

theorem construct_records_ok_forall₂ {m : IndexMap} {l : List String}
    {rs : List UpgraderRecord} (h : construct_records m l = .ok rs) :
    List.Forall₂ (fun n r => construct_one_record m n = .ok r) l rs := by
  induction l generalizing rs with
  | nil =>
    unfold construct_records at h
    cases h
    exact List.Forall₂.nil
  | cons n rest ih =>
    rw [construct_records_cons] at h
    obtain ⟨r, hr, h2⟩ := except_bind_ok h
    obtain ⟨tail, htail, h3⟩ := except_bind_ok h2
    cases h3
    exact List.Forall₂.cons hr (ih htail)

theorem construct_records_ok_names {m : IndexMap} {l : List String}
    {rs : List UpgraderRecord} (h : construct_records m l = .ok rs) :
    rs.map UpgraderRecord.upgrader_name = l := by
  have h2 := construct_records_ok_forall₂ h
  clear h
  induction h2 with
  | nil => rfl
  | cons hr _ ih =>
    simp only [List.map_cons, List.cons.injEq]
    exact ⟨(construct_one_record_ok hr).1, ih⟩

theorem construct_records_error {m : IndexMap} {l : List String} {e : GenError}
    (h : construct_records m l = .error e) :
    ∃ n ∈ l, construct_one_record m n = .error e := by
  induction l with
  | nil => exact absurd h (by unfold construct_records; simp)
  | cons n rest ih =>
    rw [construct_records_cons] at h
    cases hr : construct_one_record m n with
    | error e2 =>
      rw [hr] at h
      simp only [Except.bind] at h
      cases h
      exact ⟨n, by simp, hr⟩
    | ok r =>
      rw [hr] at h
      simp only [Except.bind] at h
      cases hrest : construct_records m rest with
      | error e2 =>
        rw [hrest] at h
        simp only [Except.bind] at h
        cases h
        obtain ⟨n2, hn2, hcor⟩ := ih hrest
        exact ⟨n2, by simp [hn2], hcor⟩
      | ok tail =>
        rw [hrest] at h
        simp only [Except.bind] at h
        cases h

theorem construct_records_ok_of_forall {m : IndexMap} {l : List String}
    (h : ∀ n ∈ l, ∃ r, construct_one_record m n = .ok r) :
    ∃ rs, construct_records m l = .ok rs := by
  induction l with
  | nil => exact ⟨[], rfl⟩
  | cons n rest ih =>
    obtain ⟨r, hr⟩ := h n (by simp)
    obtain ⟨rs, hrs⟩ := ih (fun n2 hn2 => h n2 (by simp [hn2]))
    refine ⟨r :: rs, ?_⟩
    rw [construct_records_cons, hr]
    simp only [Except.bind]
    rw [hrs]

theorem construct_version_map_ops_cons_skip {m : IndexMap} {op_name : String}
    {es : List String} {rest : VersionMap} (h : isSkippedOp op_name) :
    construct_version_map_ops m ((op_name, es) :: rest) =
      construct_version_map_ops m rest := by
  have hs : op_name = "aten::full.names" ∨ op_name = "aten::full.out" := h
  show (if op_name = "aten::full.names" ∨ op_name = "aten::full.out" then
      construct_version_map_ops m rest
    else (construct_records m es).bind fun rs =>
      (construct_version_map_ops m rest).bind fun tail => .ok ((op_name, rs) :: tail)) =
    construct_version_map_ops m rest
  rw [if_pos hs]

theorem construct_version_map_ops_cons_nonskip {m : IndexMap} {op_name : String}
    {es : List String} {rest : VersionMap} (h : ¬ isSkippedOp op_name) :
    construct_version_map_ops m ((op_name, es) :: rest) =
      (construct_records m es).bind (fun rs =>
        (construct_version_map_ops m rest).bind (fun tail => .ok ((op_name, rs) :: tail))) := by
  have hs : ¬ (op_name = "aten::full.names" ∨ op_name = "aten::full.out") := h
  show (if op_name = "aten::full.names" ∨ op_name = "aten::full.out" then
      construct_version_map_ops m rest
    else (construct_records m es).bind fun rs =>
      (construct_version_map_ops m rest).bind fun tail => .ok ((op_name, rs) :: tail)) = _
  rw [if_neg hs]

theorem construct_version_map_ops_ok_shape {m : IndexMap} {l : VersionMap}
    {out : List (String × List UpgraderRecord)}
    (h : construct_version_map_ops m l = .ok out) :
    out.map (fun p => (p.1, p.2.map UpgraderRecord.upgrader_name)) =
      l.filter (fun p => !(p.1 == "aten::full.names" || p.1 == "aten::full.out")) := by
  induction l generalizing out with
  | nil =>
    unfold construct_version_map_ops at h
    cases h
    rfl
  | cons p rest ih =>
    obtain ⟨op_name, es⟩ := p
    by_cases hskip : isSkippedOp op_name
    · rw [construct_version_map_ops_cons_skip hskip] at h
      have hb : (op_name == "aten::full.names" || op_name == "aten::full.out") = true := by
        rcases hskip with h1 | h1 <;> simp [h1]
      rw [List.filter_cons]
      simp only [hb, Bool.not_true]
      rw [if_neg (by simp)]
      exact ih h
    · rw [construct_version_map_ops_cons_nonskip hskip] at h
      obtain ⟨rs, hrs, h2⟩ := except_bind_ok h
      obtain ⟨tail, htail, h3⟩ := except_bind_ok h2
      cases h3
      have hb : (op_name == "aten::full.names" || op_name == "aten::full.out") = false := by
        simp only [isSkippedOp, not_or] at hskip
        simp [hskip.1, hskip.2]
      rw [List.filter_cons]
      simp only [hb, Bool.not_false]
      rw [if_pos trivial]
      simp only [List.map_cons]
      rw [ih htail, construct_records_ok_names hrs]

theorem construct_version_map_ops_ok_mem {m : IndexMap} {l : VersionMap}
    {out : List (String × List UpgraderRecord)}
    (h : construct_version_map_ops m l = .ok out) :
    ∀ q ∈ out, ¬ isSkippedOp q.1 ∧
      ∃ es, (q.1, es) ∈ l ∧ construct_records m es = .ok q.2 := by
  induction l generalizing out with
  | nil =>
    unfold construct_version_map_ops at h
    cases h
    intro q hq
    cases hq
  | cons p rest ih =>
    obtain ⟨op_name, es⟩ := p
    by_cases hskip : isSkippedOp op_name
    · rw [construct_version_map_ops_cons_skip hskip] at h
      intro q hq
      obtain ⟨hq1, es2, hq2, hq3⟩ := ih h q hq
      exact ⟨hq1, es2, by simp [hq2], hq3⟩
    · rw [construct_version_map_ops_cons_nonskip hskip] at h
      obtain ⟨rs, hrs, h2⟩ := except_bind_ok h
      obtain ⟨tail, htail, h3⟩ := except_bind_ok h2
      cases h3
      intro q hq
      rcases List.mem_cons.mp hq with hq1 | hq1
      · subst hq1
        exact ⟨hskip, es, by simp, hrs⟩
      · obtain ⟨hq2, es2, hq3, hq4⟩ := ih htail q hq1
        exact ⟨hq2, es2, by simp [hq3], hq4⟩

theorem construct_version_map_ops_error {m : IndexMap} {l : VersionMap} {e : GenError}
    (h : construct_version_map_ops m l = .error e) :
    ∃ p ∈ l, ¬ isSkippedOp p.1 ∧ ∃ n ∈ p.2, construct_one_record m n = .error e := by
  induction l with
  | nil => exact absurd h (by unfold construct_version_map_ops; simp)
  | cons p rest ih =>
    obtain ⟨op_name, es⟩ := p
    by_cases hskip : isSkippedOp op_name
    · rw [construct_version_map_ops_cons_skip hskip] at h
      obtain ⟨p2, hp2, hp3, hp4⟩ := ih h
      exact ⟨p2, by simp [hp2], hp3, hp4⟩
    · rw [construct_version_map_ops_cons_nonskip hskip] at h
      cases hrs : construct_records m es with
      | error e2 =>
        rw [hrs] at h
        simp only [Except.bind] at h
        cases h
        obtain ⟨n, hn, hcor⟩ := construct_records_error hrs
        exact ⟨(op_name, es), by simp, hskip, n, hn, hcor⟩
      | ok rs =>
        rw [hrs] at h
        simp only [Except.bind] at h
        cases htail : construct_version_map_ops m rest with
        | error e2 =>
          rw [htail] at h
          simp only [Except.bind] at h
          cases h
          obtain ⟨p2, hp2, hp3, hp4⟩ := ih htail
          exact ⟨p2, by simp [hp2], hp3, hp4⟩
        | ok tail =>
          rw [htail] at h
          simp only [Except.bind] at h
          cases h

theorem construct_version_map_ops_ok_of_forall {m : IndexMap} {l : VersionMap}
    (h : ∀ p ∈ l, ¬ isSkippedOp p.1 → ∀ n ∈ p.2, ∃ r, construct_one_record m n = .ok r) :
    ∃ out, construct_version_map_ops m l = .ok out := by
  induction l with
  | nil => exact ⟨[], rfl⟩
  | cons p rest ih =>
    obtain ⟨op_name, es⟩ := p
    obtain ⟨tail, htail⟩ := ih (fun p2 hp2 => h p2 (by simp [hp2]))
    by_cases hskip : isSkippedOp op_name
    · exact ⟨tail, by rw [construct_version_map_ops_cons_skip hskip]; exact htail⟩
    · obtain ⟨rs, hrs⟩ := construct_records_ok_of_forall
        (fun n hn => h (op_name, es) (by simp) hskip n hn)
      refine ⟨(op_name, rs) :: tail, ?_⟩
      rw [construct_version_map_ops_cons_nonskip hskip, hrs]
      simp only [Except.bind]
      rw [htail]

theorem build_function_table_cons_skip {upgrader_name : String} {bytecode : Bytecode}
    {rest : UpgraderDict} (h : isSkippedUpgrader upgrader_name) :
    build_function_table ((upgrader_name, bytecode) :: rest) = build_function_table rest := by
  have hs : upgrader_name = "full_names_0_4" ∨ upgrader_name = "full_out_0_4" := h
  show (if upgrader_name = "full_names_0_4" ∨ upgrader_name = "full_out_0_4" then
      build_function_table rest
    else (render_upgrader_function upgrader_name bytecode).bind fun f =>
      (build_function_table rest).bind fun tail => .ok (f :: tail)) = _
  rw [if_pos hs]

theorem build_function_table_cons_nonskip {upgrader_name : String} {bytecode : Bytecode}
    {rest : UpgraderDict} (h : ¬ isSkippedUpgrader upgrader_name) :
    build_function_table ((upgrader_name, bytecode) :: rest) =
      (render_upgrader_function upgrader_name bytecode).bind (fun f =>
        (build_function_table rest).bind (fun tail => .ok (f :: tail))) := by
  have hs : ¬ (upgrader_name = "full_names_0_4" ∨ upgrader_name = "full_out_0_4") := h
  show (if upgrader_name = "full_names_0_4" ∨ upgrader_name = "full_out_0_4" then
      build_function_table rest
    else (render_upgrader_function upgrader_name bytecode).bind fun f =>
      (build_function_table rest).bind fun tail => .ok (f :: tail)) = _
  rw [if_neg hs]

theorem render_upgrader_function_name {upgrader_name : String} {bytecode : Bytecode}
    {f : RenderedFunction} (h : render_upgrader_function upgrader_name bytecode = .ok f) :
    f.upgrader_name = upgrader_name := by
  obtain ⟨fs, _, h2⟩ := except_map_ok h
  rw [← h2]

theorem build_function_table_ok_names {ul : UpgraderDict} {t : List RenderedFunction}
    (h : build_function_table ul = .ok t) :
    t.map RenderedFunction.upgrader_name =
      (ul.filter (fun e => !(e.1 == "full_names_0_4" || e.1 == "full_out_0_4"))).map Prod.fst := by
  induction ul generalizing t with
  | nil =>
    unfold build_function_table at h
    cases h
    rfl
  | cons e rest ih =>
    obtain ⟨upgrader_name, bytecode⟩ := e
    by_cases hskip : isSkippedUpgrader upgrader_name
    · rw [build_function_table_cons_skip hskip] at h
      have hb : (upgrader_name == "full_names_0_4" || upgrader_name == "full_out_0_4") = true := by
        rcases hskip with h1 | h1 <;> simp [h1]
      rw [List.filter_cons]
      simp only [hb, Bool.not_true]
      rw [if_neg (by simp)]
      exact ih h
    · rw [build_function_table_cons_nonskip hskip] at h
      obtain ⟨f, hf, h2⟩ := except_bind_ok h
      obtain ⟨tail, htail, h3⟩ := except_bind_ok h2
      cases h3
      have hb : (upgrader_name == "full_names_0_4" || upgrader_name == "full_out_0_4") = false := by
        simp only [isSkippedUpgrader, not_or] at hskip
        simp [hskip.1, hskip.2]
      rw [List.filter_cons]
      simp only [hb, Bool.not_false]
      rw [if_pos trivial]
      simp only [List.map_cons]
      rw [ih htail, render_upgrader_function_name hf]

theorem apply_bytecode_field_untouched {fs fs2 : FieldStrings} {item : String × YamlVal}
    (h : apply_bytecode_field fs item = .ok fs2) :
    (item.1 ≠ "instructions" → fs2.instruction_list = fs.instruction_list) ∧
    (item.1 ≠ "constants" → fs2.constant_list = fs.constant_list) ∧
    (item.1 ≠ "types" → fs2.type_list = fs.type_list) ∧
    (item.1 ≠ "operators" → fs2.operator_list = fs.operator_list) ∧
    (item.1 ≠ "register_size" → fs2.register_size = fs.register_size) := by
  unfold apply_bytecode_field at h
  split_ifs at h with h1 h2 h3 h4 h5
  · obtain ⟨elems, _, h6⟩ := except_bind_ok h
    obtain ⟨s, _, h7⟩ := except_bind_ok h6
    cases h7
    exact ⟨fun hc => absurd h1 hc, fun _ => rfl, fun _ => rfl, fun _ => rfl, fun _ => rfl⟩
  · obtain ⟨elems, _, h6⟩ := except_bind_ok h
    obtain ⟨s, _, h7⟩ := except_bind_ok h6
    cases h7
    exact ⟨fun _ => rfl, fun hc => absurd h2 hc, fun _ => rfl, fun _ => rfl, fun _ => rfl⟩
  · obtain ⟨elems, _, h6⟩ := except_bind_ok h
    obtain ⟨s, _, h7⟩ := except_bind_ok h6
    cases h7
    exact ⟨fun _ => rfl, fun _ => rfl, fun _ => rfl, fun hc => absurd h3 hc, fun _ => rfl⟩
  · obtain ⟨elems, _, h6⟩ := except_bind_ok h
    cases h6
    exact ⟨fun _ => rfl, fun _ => rfl, fun hc => absurd h4 hc, fun _ => rfl, fun _ => rfl⟩
  · obtain ⟨s, _, h6⟩ := except_bind_ok h
    cases h6
    exact ⟨fun _ => rfl, fun _ => rfl, fun _ => rfl, fun _ => rfl, fun hc => absurd h5 hc⟩

theorem apply_bytecode_fields_untouched {bc : Bytecode} :
    ∀ {fs fs2 : FieldStrings}, apply_bytecode_fields fs bc = .ok fs2 →
    ("instructions" ∉ bc.map Prod.fst → fs2.instruction_list = fs.instruction_list) ∧
    ("constants" ∉ bc.map Prod.fst → fs2.constant_list = fs.constant_list) ∧
    ("types" ∉ bc.map Prod.fst → fs2.type_list = fs.type_list) ∧
    ("operators" ∉ bc.map Prod.fst → fs2.operator_list = fs.operator_list) ∧
    ("register_size" ∉ bc.map Prod.fst → fs2.register_size = fs.register_size) := by
  induction bc with
  | nil =>
    intro fs fs2 h
    unfold apply_bytecode_fields at h
    cases h
    exact ⟨fun _ => rfl, fun _ => rfl, fun _ => rfl, fun _ => rfl, fun _ => rfl⟩
  | cons item rest ih =>
    intro fs fs2 h
    unfold apply_bytecode_fields at h
    obtain ⟨fsm, hstep, h2⟩ := except_bind_ok h
    have hu1 := apply_bytecode_field_untouched hstep
    have hu2 := ih h2
    simp only [List.map_cons, List.mem_cons, not_or] at *
    refine ⟨?_, ?_, ?_, ?_, ?_⟩
    · intro hc
      rw [hu2.1 hc.2, hu1.1 (fun he => hc.1 he.symm)]
    · intro hc
      rw [hu2.2.1 hc.2, hu1.2.1 (fun he => hc.1 he.symm)]
    · intro hc
      rw [hu2.2.2.1 hc.2, hu1.2.2.1 (fun he => hc.1 he.symm)]
    · intro hc
      rw [hu2.2.2.2.1 hc.2, hu1.2.2.2.1 (fun he => hc.1 he.symm)]
    · intro hc
      rw [hu2.2.2.2.2 hc.2, hu1.2.2.2.2 (fun he => hc.1 he.symm)]

theorem sorted_perm_nodupkeys_eq {β : Type} :
    ∀ (l₁ l₂ : List (String × β)), l₁.Perm l₂ →
      l₁.Pairwise keyLe → l₂.Pairwise keyLe →
      (l₁.map Prod.fst).Nodup → l₁ = l₂ := by
  intro l₁
  induction l₁ with
  | nil =>
    intro l₂ hp _ _ _
    exact hp.nil_eq
  | cons a t₁ ih =>
    intro l₂ hp hs₁ hs₂ hnd
    cases l₂ with
    | nil => exact hp.symm.nil_eq.symm
    | cons b t₂ =>
      by_cases hab : a = b
      · subst hab
        have hp2 := hp.cons_inv
        have hnd2 : (t₁.map Prod.fst).Nodup := by
          simp only [List.map_cons, List.nodup_cons] at hnd
          exact hnd.2
        rw [ih t₂ hp2 (List.Pairwise.of_cons hs₁) (List.Pairwise.of_cons hs₂) hnd2]
      · have hbl : b ∈ a :: t₁ := hp.symm.subset (by simp)
        have hbt : b ∈ t₁ := by
          rcases List.mem_cons.mp hbl with h | h
          · exact absurd h.symm hab
          · exact h
        have hal : a ∈ b :: t₂ := hp.subset (by simp)
        have hat : a ∈ t₂ := by
          rcases List.mem_cons.mp hal with h | h
          · exact absurd h hab
          · exact h
        have h1 : keyLe a b := (List.pairwise_cons.mp hs₁).1 b hbt
        have h2 : keyLe b a := (List.pairwise_cons.mp hs₂).1 a hat
        have hkey : a.1 = b.1 := le_antisymm h1 h2
        have hnotin : a.1 ∉ t₁.map Prod.fst := by
          simp only [List.map_cons, List.nodup_cons] at hnd
          exact hnd.1
        exact absurd (by rw [hkey]; exact List.mem_map_of_mem Prod.fst hbt) hnotin

theorem sort_upgrader_sorted (ul : UpgraderDict) :
    (sort_upgrader ul).Pairwise keyLe :=
  List.sorted_insertionSort keyLe ul

theorem sort_upgrader_perm (ul : UpgraderDict) : (sort_upgrader ul).Perm ul :=
  List.perm_insertionSort keyLe ul

theorem sort_upgrader_congr {ul ul2 : UpgraderDict} (hperm : ul.Perm ul2)
    (hnd : (ul.map Prod.fst).Nodup) : sort_upgrader ul = sort_upgrader ul2 := by
  apply sorted_perm_nodupkeys_eq
  · exact (sort_upgrader_perm ul).trans (hperm.trans (sort_upgrader_perm ul2).symm)
  · exact sort_upgrader_sorted ul
  · exact sort_upgrader_sorted ul2
  · exact (((sort_upgrader_perm ul).map Prod.fst).nodup_iff).mpr hnd

/-- Reordering of the version table that leaves its contents unchanged:
the operator entries may be enumerated in any order, and each operator's
upgrader-entry list may be enumerated in any order. -/
def VMPerm (a b : VersionMap) : Prop :=
  ∃ c, a.Perm c ∧ List.Forall₂ (fun p q => p.1 = q.1 ∧ p.2.Perm q.2) c b

theorem insertionSort_strLe_congr {x y : List String} (h : x.Perm y) :
    List.insertionSort strLe x = List.insertionSort strLe y :=
  List.eq_of_perm_of_sorted
    ((List.perm_insertionSort strLe x).trans (h.trans (List.perm_insertionSort strLe y).symm))
    (List.sorted_insertionSort strLe x) (List.sorted_insertionSort strLe y)

theorem sorted_version_map_pairwise (vm : VersionMap) :
    (sorted_version_map vm).Pairwise keyLe := by
  unfold sorted_version_map
  refine List.Pairwise.map _ ?_ (List.sorted_insertionSort keyLe vm)
  intro p q hpq
  exact hpq

theorem sorted_version_map_mem {vm : VersionMap} {p : String × List String}
    (h : p ∈ sorted_version_map vm) :
    (∃ es, (p.1, es) ∈ vm ∧ p.2 = List.insertionSort strLe es) ∧ p.2.Pairwise strLe := by
  unfold sorted_version_map at h
  obtain ⟨q, hq, hq2⟩ := List.mem_map.mp h
  have hqm : q ∈ vm := (List.perm_insertionSort keyLe vm).subset hq
  cases hq2
  exact ⟨⟨q.2, by simpa using hqm, rfl⟩, List.sorted_insertionSort strLe q.2⟩

theorem sorted_version_map_keys_perm (vm : VersionMap) :
    ((sorted_version_map vm).map Prod.fst).Perm (vm.map Prod.fst) := by
  unfold sorted_version_map
  rw [List.map_map]
  have hc : (Prod.fst ∘ fun p : String × List String =>
      (p.1, List.insertionSort strLe p.2)) = Prod.fst := rfl
  rw [hc]
  exact (List.perm_insertionSort keyLe vm).map Prod.fst

theorem forall₂_perm_map_sort {c b : VersionMap}
    (hcb : List.Forall₂ (fun p q => p.1 = q.1 ∧ p.2.Perm q.2) c b) :
    c.map (fun p => (p.1, List.insertionSort strLe p.2)) =
      b.map (fun p => (p.1, List.insertionSort strLe p.2)) := by
  induction hcb with
  | nil => rfl
  | cons hpq _ ih =>
    simp only [List.map_cons, List.cons.injEq]
    exact ⟨by rw [hpq.1, insertionSort_strLe_congr hpq.2], ih⟩

theorem sorted_version_map_congr {a b : VersionMap} (h : VMPerm a b)
    (hnd : (a.map Prod.fst).Nodup) :
    sorted_version_map a = sorted_version_map b := by
  obtain ⟨c, hac, hcb⟩ := h
  have hmap := forall₂_perm_map_sort hcb
  apply sorted_perm_nodupkeys_eq
  · show (sorted_version_map a).Perm (sorted_version_map b)
    unfold sorted_version_map
    refine ((List.perm_insertionSort keyLe a).map _).trans ?_
    refine (hac.map _).trans ?_
    rw [hmap]
    exact ((List.perm_insertionSort keyLe b).map _).symm
  · exact sorted_version_map_pairwise a
  · exact sorted_version_map_pairwise b
  · exact (sorted_version_map_keys_perm a).nodup_iff.mpr hnd

theorem write_cpp_core_ok {ul : UpgraderDict} {vm : VersionMap} {art : GeneratedArtifact}
    (h : write_cpp_core ul vm = .ok art) :
    construct_version_maps (get_upgrader_bytecode_function_to_index_map ul) vm =
        .ok art.version_map ∧
      build_function_table ul = .ok art.function_table := by
  unfold write_cpp_core at h
  obtain ⟨vms, hv, h2⟩ := except_bind_ok h
  obtain ⟨t, ht, h3⟩ := except_bind_ok h2
  cases h3
  exact ⟨hv, ht⟩

/-- The legal constant shapes of `construct_constants` (string, boolean,
None), as a named predicate for statements. -/
def allowedConstant (v : YamlItem) : Prop :=
  (∃ s, v = .scalar (.str s)) ∨ (∃ b, v = .scalar (.bool b)) ∨ v = .scalar .none

/-- The rendering the source applies to a legal constant: strings are
double-quoted, booleans become `true`/`false`, None becomes the empty
argument. -/
def renderConstant : YamlItem → String
  | .scalar (.str s) => "\"" ++ s ++ "\""
  | .scalar (.bool b) => if b then "true" else "false"
  | _ => ""

theorem convert_constant_allowed {v : YamlItem} (h : allowedConstant v) :
    convert_constant v = .ok (renderConstant v) := by
  rcases h with ⟨s, rfl⟩ | ⟨b, rfl⟩ | rfl <;> rfl

theorem convert_constant_error {v : YamlItem} {e : GenError}
    (h : convert_constant v = .error e) :
    ¬ allowedConstant v ∧ e = .unsupportedConstantType v := by
  cases v with
  | scalar s =>
    cases s with
    | str s => cases h
    | bool b => cases h
    | none => cases h
    | int n =>
      cases h
      refine ⟨?_, rfl⟩
      rintro (⟨s, hs⟩ | ⟨b, hb⟩ | hn) <;> simp_all
  | list xs =>
    cases h
    refine ⟨?_, rfl⟩
    rintro (⟨s, hs⟩ | ⟨b, hb⟩ | hn) <;> simp_all

theorem construct_constants_parts_cons (v : YamlItem) (rest : List YamlItem) :
    construct_constants_parts (v :: rest) =
      (convert_constant v).bind (fun c =>
        (construct_constants_parts rest).bind (fun tail => .ok (ONE_CONSTANT c :: tail))) := rfl

theorem construct_constants_parts_of_allowed {l : List YamlItem}
    (h : ∀ v ∈ l, allowedConstant v) :
    construct_constants_parts l =
      .ok (l.map (fun v => ONE_CONSTANT (renderConstant v))) := by
  induction l with
  | nil => rfl
  | cons v rest ih =>
    rw [construct_constants_parts_cons, convert_constant_allowed (h v (by simp))]
    simp only [Except.bind]
    rw [ih (fun v2 hv2 => h v2 (by simp [hv2]))]
    rfl

theorem construct_constants_parts_error {l : List YamlItem} {e : GenError}
    (h : construct_constants_parts l = .error e) :
    ∃ v ∈ l, ¬ allowedConstant v ∧ e = .unsupportedConstantType v := by
  induction l with
  | nil => exact absurd h (by unfold construct_constants_parts; simp)
  | cons v rest ih =>
    rw [construct_constants_parts_cons] at h
    cases hv : convert_constant v with
    | error e2 =>
      rw [hv] at h
      simp only [Except.bind] at h
      cases h
      obtain ⟨h1, h2⟩ := convert_constant_error hv
      exact ⟨v, by simp, h1, h2⟩
    | ok c =>
      rw [hv] at h
      simp only [Except.bind] at h
      cases hrest : construct_constants_parts rest with
      | error e2 =>
        rw [hrest] at h
        simp only [Except.bind] at h
        cases h
        obtain ⟨v2, hv2, h1, h2⟩ := ih hrest
        exact ⟨v2, by simp [hv2], h1, h2⟩
      | ok tail =>
        rw [hrest] at h
        simp only [Except.bind] at h
        cases h

theorem construct_constants_parts_not_allowed {l : List YamlItem}
    (h : ¬ ∀ v ∈ l, allowedConstant v) :
    ∃ e, construct_constants_parts l = .error e := by
  induction l with
  | nil => exact absurd (by simp) h
  | cons v rest ih =>
    by_cases hv : allowedConstant v
    · have hrest : ¬ ∀ v2 ∈ rest, allowedConstant v2 := by
        intro hc
        exact h (by
          intro v2 hv2
          rcases List.mem_cons.mp hv2 with h1 | h1
          · exact h1 ▸ hv
          · exact hc v2 h1)
      obtain ⟨e, he⟩ := ih hrest
      refine ⟨e, ?_⟩
      rw [construct_constants_parts_cons, convert_constant_allowed hv]
      simp only [Except.bind]
      rw [he]
    · refine ⟨.unsupportedConstantType v, ?_⟩
      rw [construct_constants_parts_cons]
      cases hc : convert_constant v with
      | error e2 =>
        have := (convert_constant_error hc).2
        subst this
        simp only [Except.bind]
      | ok c =>
        exfalso
        cases v with
        | scalar s =>
          cases s with
          | str s => exact hv (Or.inl ⟨s, rfl⟩)
          | bool b => exact hv (Or.inr (Or.inl ⟨b, rfl⟩))
          | none => exact hv (Or.inr (Or.inr rfl))
          | int n => cases hc
        | list xs => cases hc

theorem forall₂_mem_right {α β : Type} {R : α → β → Prop} {l₁ : List α} {l₂ : List β}
    (h : List.Forall₂ R l₁ l₂) : ∀ b ∈ l₂, ∃ a ∈ l₁, R a b := by
  induction h with
  | nil => intro b hb; cases hb
  | cons hr _ ih =>
    intro b hb
    rcases List.mem_cons.mp hb with hb1 | hb1
    · subst hb1; exact ⟨_, by simp, hr⟩
    · obtain ⟨a, ha, har⟩ := ih b hb1
      exact ⟨a, by simp [ha], har⟩

theorem construct_one_record_error_cases {m : IndexMap} {name : String} {e : GenError}
    (h : construct_one_record m name = .error e) :
    e = .indexError ∨ ∃ nm, e = .keyError nm := by
  unfold construct_one_record at h
  cases h2 : (parseUpgraderInfo name)[2]? with
  | none => rw [h2] at h; cases h; exact Or.inl rfl
  | some mn =>
    rw [h2] at h
    cases h3 : (parseUpgraderInfo name)[3]? with
    | none => rw [h3] at h; cases h; exact Or.inl rfl
    | some mx =>
      rw [h3] at h
      cases h4 : dictGet m name with
      | none => rw [h4] at h; cases h; exact Or.inr ⟨name, rfl⟩
      | some i => rw [h4] at h; cases h

theorem mem_sorted_version_map_of_mem {vm : VersionMap} {k : String} {es : List String}
    (hk : (k, es) ∈ vm) :
    (k, List.insertionSort strLe es) ∈ sorted_version_map vm := by
  unfold sorted_version_map
  exact List.mem_map.mpr
    ⟨(k, es), (List.perm_insertionSort keyLe vm).symm.subset hk, rfl⟩

theorem construct_version_maps_ok_covers {m : IndexMap} {vm : VersionMap}
    {out : List (String × List UpgraderRecord)}
    (h : construct_version_maps m vm = .ok out)
    {k : String} {es : List String} (hk : (k, es) ∈ vm) (hns : ¬ isSkippedOp k) :
    ∃ q ∈ out, q.1 = k ∧
      q.2.map UpgraderRecord.upgrader_name = List.insertionSort strLe es := by
  unfold construct_version_maps at h
  have hshape := construct_version_map_ops_ok_shape h
  have hmem : (k, List.insertionSort strLe es) ∈ sorted_version_map vm :=
    mem_sorted_version_map_of_mem hk
  have hb : (!(k == "aten::full.names" || k == "aten::full.out")) = true := by
    simp only [isSkippedOp, not_or] at hns
    simp [hns.1, hns.2]
  have hfil : (k, List.insertionSort strLe es) ∈
      (sorted_version_map vm).filter
        (fun p => !(p.1 == "aten::full.names" || p.1 == "aten::full.out")) :=
    List.mem_filter.mpr ⟨hmem, hb⟩
  rw [← hshape] at hfil
  obtain ⟨q, hq, hq2⟩ := List.mem_map.mp hfil
  have hq3 : q.1 = k := congrArg Prod.fst hq2
  have hq4 : q.2.map UpgraderRecord.upgrader_name = List.insertionSort strLe es :=
    congrArg Prod.snd hq2
  exact ⟨q, hq, hq3, hq4⟩

theorem construct_version_maps_ok_resolved {m : IndexMap} {vm : VersionMap}
    {out : List (String × List UpgraderRecord)}
    (h : construct_version_maps m vm = .ok out) :
    ∀ p ∈ out, ∀ r ∈ p.2, dictGet m r.upgrader_name = some r.index := by
  intro p hp r hr
  unfold construct_version_maps at h
  obtain ⟨_, es, _, hrec⟩ := construct_version_map_ops_ok_mem h p hp
  obtain ⟨n, _, hcor⟩ := forall₂_mem_right (construct_records_ok_forall₂ hrec) r hr
  obtain ⟨hn, _, _, hget⟩ := construct_one_record_ok hcor
  rw [hn]
  exact hget

/-- Claim C1 (code bug): the claim states that every emitted
`OperatorVersionMap` entry carries a `bytecode_index` inside
`[0, len(BytecodeFunctionTable))`, in particular when the skip-listed
upgraders are present.  The code violates this: the index map is built
over the unfiltered description sequence while the emitted function
table drops the skip-listed entries, so with `full_names_0_4` present
the reference to `x_y_0_1` is emitted with index 1 while the emitted
table has length 1. -/
theorem C1_index_out_of_range :
    ∃ art, generate
        [("full_names_0_4", [("register_size", YamlVal.int 1)]),
         ("x_y_0_1", [("register_size", YamlVal.int 1)])]
        [("aten::x", ["x_y_0_1"])] = Except.ok art ∧
      ∃ p ∈ art.version_map, ∃ r ∈ p.2, art.function_table.length ≤ r.index :=
  ⟨⟨[("aten::x", [⟨"0", "1", "x_y_0_1", 1⟩])],
    [⟨"x_y_0_1", ⟨"", "", "", "1", ""⟩⟩]⟩, by decide, by decide⟩

/-- Claim C2 (code bug): the claim states that the two skip-listed
entries are filtered out of the description set before indices are
assigned, so the name-to-index map contains exactly the names of the
filtered input.  The code applies the skip only in the emission loop of
`write_cpp`, after `get_upgrader_bytecode_function_to_index_map` has
already indexed every description: a skip-listed name is assigned an
index and shifts the indices of all later names. -/
theorem C2_skip_not_applied_to_index_map :
    dictGet (get_upgrader_bytecode_function_to_index_map
        [("full_names_0_4", []), ("x_y_0_1", [])]) "full_names_0_4" = some 0 ∧
      dictGet (get_upgrader_bytecode_function_to_index_map
        [("full_names_0_4", []), ("x_y_0_1", [])]) "x_y_0_1" = some 1 ∧
      "full_names_0_4" ∈ skip_upgraders := by decide

/-- Claim C7, counterexample: the claim states that `register_size`
validation succeeds exactly for non-negative integers and that a
negative integer raises `InvalidRegisterSizeError`.  The code checks
only `isinstance(x, int)`: the negative integer `-1` is accepted and
rendered as `-1`. -/
theorem C7_counterexample :
    construct_register_size (YamlVal.int (-1)) = .ok "-1" ∧ (-1 : Int) < 0 :=
  ⟨rfl, by decide⟩

/-- Claim C7, amended: `register_size` validation succeeds exactly when
the value is a Python `int` — any integer, negative ones included, and
booleans, since Python `bool` is a subclass of `int`; every other value
raises the hard error reporting the value; an accepted integer is
rendered as its decimal string. -/
theorem C7_register_size_amended : ∀ v : YamlVal,
    ((∃ s, construct_register_size v = .ok s) ↔
      (∃ n, v = .int n) ∨ (∃ b, v = .bool b)) ∧
    (∀ n : Int, construct_register_size (.int n) = .ok (toString n)) ∧
    (((∀ n, v ≠ .int n) ∧ (∀ b, v ≠ .bool b)) →
      construct_register_size v = .error (.invalidRegisterSize v)) := by
  intro v
  refine ⟨⟨?_, ?_⟩, fun n => rfl, ?_⟩
  · rintro ⟨s, hs⟩
    cases v with
    | int n => exact Or.inl ⟨n, rfl⟩
    | bool b => exact Or.inr ⟨b, rfl⟩
    | str s2 => cases hs
    | none => cases hs
    | list xs => cases hs
  · rintro (⟨n, rfl⟩ | ⟨b, rfl⟩)
    · exact ⟨_, rfl⟩
    · exact ⟨_, rfl⟩
  · rintro ⟨h1, h2⟩
    cases v with
    | int n => exact absurd rfl (h1 n)
    | bool b => exact absurd rfl (h2 b)
    | str s => rfl
    | none => rfl
    | list xs => rfl

/-- Witness for `C7_register_size_amended` at the concrete value
`"not a size"`. -/
theorem C7_register_size_amended_witness :
    construct_register_size (YamlVal.str "not a size") =
      .error (.invalidRegisterSize (YamlVal.str "not a size")) :=
  (C7_register_size_amended (YamlVal.str "not a size")).2.2
    ⟨fun n h => YamlVal.noConfusion h, fun b h => YamlVal.noConfusion h⟩

instance (v : YamlItem) : Decidable (allowedConstant v) :=
  match v with
  | .scalar (.str s) => isTrue (Or.inl ⟨s, rfl⟩)
  | .scalar (.bool b) => isTrue (Or.inr (Or.inl ⟨b, rfl⟩))
  | .scalar .none => isTrue (Or.inr (Or.inr rfl))
  | .scalar (.int n) => isFalse (by rintro (⟨s, hs⟩ | ⟨b, hb⟩ | hn) <;> simp_all)
  | .list xs => isFalse (by rintro (⟨s, hs⟩ | ⟨b, hb⟩ | hn) <;> simp_all)

/-- Claim C8 (confirmed): `construct_constants` succeeds exactly when
every element of the constants list is a string, a boolean or None; on
success each element is rendered (strings double-quoted, booleans as
`true`/`false`, None as the empty argument) in the original list order
and joined; any other element raises the hard error naming the
offending value. -/
theorem C8_constants_validation : ∀ l : List YamlItem,
    ((∃ s, construct_constants l = .ok s) ↔ ∀ v ∈ l, allowedConstant v) ∧
    ((∀ v ∈ l, allowedConstant v) →
      construct_constants l =
        .ok (CONSTANT_LIST (String.join
          (l.map (fun v => ONE_CONSTANT (renderConstant v)))))) ∧
    (∀ e, construct_constants l = .error e →
      ∃ v ∈ l, ¬ allowedConstant v ∧ e = .unsupportedConstantType v) := by
  intro l
  refine ⟨⟨?_, ?_⟩, ?_, ?_⟩
  · rintro ⟨s, hs⟩
    by_contra hc
    obtain ⟨e, he⟩ := construct_constants_parts_not_allowed hc
    unfold construct_constants at hs
    rw [he] at hs
    cases hs
  · intro hall
    have h2 : construct_constants l = .ok (CONSTANT_LIST (String.join
        (l.map (fun v => ONE_CONSTANT (renderConstant v))))) := by
      unfold construct_constants
      rw [construct_constants_parts_of_allowed hall]
      rfl
    exact ⟨_, h2⟩
  · intro hall
    unfold construct_constants
    rw [construct_constants_parts_of_allowed hall]
    rfl
  · intro e he
    unfold construct_constants at he
    cases hp : construct_constants_parts l with
    | error e2 =>
      rw [hp] at he
      simp only [Except.map] at he
      cases he
      exact construct_constants_parts_error hp
    | ok parts =>
      rw [hp] at he
      simp only [Except.map] at he
      cases he

/-- Witness for `C8_constants_validation` at a concrete constants list
containing a string, a boolean and None. -/
theorem C8_constants_validation_witness :
    construct_constants [.scalar (.str "hi"), .scalar (.bool true), .scalar .none] =
      .ok (CONSTANT_LIST (String.join
        [ONE_CONSTANT "\"hi\"", ONE_CONSTANT "true", ONE_CONSTANT ""])) :=
  (C8_constants_validation
      [.scalar (.str "hi"), .scalar (.bool true), .scalar .none]).2.1 (by decide)

/-- Claim C4 (confirmed): for every entry of the built version map, the
emitted version bounds are obtained by splitting the upgrader name on
the underscore delimiter, discarding empty tokens, and taking the third
token as the min version and the fourth as the max version; in
particular `div__Scalar_0_3` parses to min `0`, max `3`. -/
theorem C4_name_derived_bounds :
    (∀ (m : IndexMap) (vm : VersionMap) (out : List (String × List UpgraderRecord)),
      construct_version_maps m vm = .ok out →
      ∀ p ∈ out, ∀ r ∈ p.2,
        ((pySplitChar r.upgrader_name '_').filter (fun t => t != ""))[2]? =
            some r.min_version ∧
          ((pySplitChar r.upgrader_name '_').filter (fun t => t != ""))[3]? =
            some r.max_version) ∧
    (∀ (m : IndexMap) (i : Nat), dictGet m "div__Scalar_0_3" = some i →
      construct_one_record m "div__Scalar_0_3" =
        .ok ⟨"0", "3", "div__Scalar_0_3", i⟩) := by
  constructor
  · intro m vm out h p hp r hr
    unfold construct_version_maps at h
    obtain ⟨_, es, _, hrec⟩ := construct_version_map_ops_ok_mem h p hp
    obtain ⟨n, _, hcor⟩ := forall₂_mem_right (construct_records_ok_forall₂ hrec) r hr
    obtain ⟨hn, h2, h3, _⟩ := construct_one_record_ok hcor
    rw [hn]
    exact ⟨h2, h3⟩
  · intro m i h
    exact @construct_one_record_intro m "div__Scalar_0_3" "0" "3" i (by decide) (by decide) h

/-- Witness for `C4_name_derived_bounds` at a concrete index map binding
`div__Scalar_0_3` to index 7. -/
theorem C4_name_derived_bounds_witness :
    construct_one_record [("div__Scalar_0_3", 7)] "div__Scalar_0_3" =
      .ok ⟨"0", "3", "div__Scalar_0_3", 7⟩ :=
  C4_name_derived_bounds.2 [("div__Scalar_0_3", 7)] 7 (by decide)

/-- Claim C5, counterexample: the claim states that a name whose third
or fourth token is not a decimal number raises a hard error.  The code
performs no numeric check: for the name `a_b_x_y` (third token `x`,
fourth token `y`, neither a digit string) the version map is built
without error, emitting the tokens verbatim. -/
theorem C5_counterexample :
    construct_version_maps [("a_b_x_y", 0)] [("op", ["a_b_x_y"])] =
        .ok [("op", [⟨"x", "y", "a_b_x_y", 0⟩])] ∧
      (∀ c ∈ "x".toList, ¬ c.isDigit) ∧ (∀ c ∈ "y".toList, ¬ c.isDigit) :=
  ⟨by decide, by decide, by decide⟩

/-- Claim C5, amended: building the version map raises the token-count
hard error exactly for names with fewer than four non-empty tokens (the
`IndexError` of `upgrader_info[2]`/`upgrader_info[3]`): per reference
the error is equivalent to the token count being below four, an error
of that kind implicates some reference of a non-skipped operator with
fewer than four tokens, and when every such reference has at least four
tokens and resolves in the index map the build succeeds — non-numeric
bound tokens are never checked. -/
theorem C5_malformed_names_amended :
    (∀ (m : IndexMap) (name : String),
      construct_one_record m name = .error .indexError ↔
        (parseUpgraderInfo name).length < 4) ∧
    (∀ (m : IndexMap) (vm : VersionMap),
      construct_version_maps m vm = .error .indexError →
      ∃ p ∈ vm, ¬ isSkippedOp p.1 ∧ ∃ n ∈ p.2, (parseUpgraderInfo n).length < 4) ∧
    (∀ (m : IndexMap) (vm : VersionMap),
      (∀ p ∈ vm, ¬ isSkippedOp p.1 → ∀ n ∈ p.2,
        4 ≤ (parseUpgraderInfo n).length ∧ (dictGet m n).isSome) →
      ∃ out, construct_version_maps m vm = .ok out) := by
  refine ⟨construct_one_record_indexError_iff, ?_, ?_⟩
  · intro m vm h
    unfold construct_version_maps at h
    obtain ⟨p, hp, hns, n, hn, hcor⟩ := construct_version_map_ops_error h
    have hlen := (construct_one_record_indexError_iff m n).mp hcor
    obtain ⟨⟨es, hes, hsort⟩, _⟩ := sorted_version_map_mem hp
    refine ⟨(p.1, es), hes, hns, n, ?_, hlen⟩
    rw [hsort] at hn
    exact (List.perm_insertionSort strLe es).subset hn
  · intro m vm h
    unfold construct_version_maps
    apply construct_version_map_ops_ok_of_forall
    intro p hp hns n hn
    obtain ⟨⟨es, hes, hsort⟩, _⟩ := sorted_version_map_mem hp
    have hn2 : n ∈ es := by
      rw [hsort] at hn
      exact (List.perm_insertionSort strLe es).subset hn
    have h2 := h (p.1, es) hes hns n hn2
    exact (construct_one_record_isOk_iff m n).mpr h2

/-- Witness for `C5_malformed_names_amended` at a concrete well-formed
input. -/
theorem C5_malformed_names_amended_witness :
    ∃ out, construct_version_maps [("a_b_0_1", 5)] [("aten::a", ["a_b_0_1"])] = .ok out :=
  C5_malformed_names_amended.2.2 [("a_b_0_1", 5)] [("aten::a", ["a_b_0_1"])] (by decide)

/-- Claim C6, counterexample: the claim states the build fails if and
only if some reference's upgrader name is absent from the index map.
A reference of a skip-listed operator is exempt: `zzz` is absent from
the (empty) index map, yet the build of a table containing it only
under `aten::full.names` succeeds. -/
theorem C6_counterexample :
    construct_version_maps [] [("aten::full.names", ["zzz"])] = .ok [] ∧
      dictGet ([] : IndexMap) "zzz" = Option.none :=
  ⟨by decide, rfl⟩

/-- Claim C6, amended: restricted to references of non-skipped operators
whose names have at least four non-empty tokens, the build fails with
the lookup hard error (`KeyError`) exactly when some such reference's
upgrader name is absent from the index map; and whenever the build
succeeds, every emitted record's index equals the index-map entry for
its upgrader name. -/
theorem C6_unresolved_reference_amended :
    (∀ (m : IndexMap) (vm : VersionMap),
      (∀ p ∈ vm, ¬ isSkippedOp p.1 → ∀ n ∈ p.2, 4 ≤ (parseUpgraderInfo n).length) →
      ((∃ nm, construct_version_maps m vm = .error (.keyError nm)) ↔
        ∃ p ∈ vm, ¬ isSkippedOp p.1 ∧ ∃ n ∈ p.2, dictGet m n = Option.none)) ∧
    (∀ (m : IndexMap) (vm : VersionMap) (out : List (String × List UpgraderRecord)),
      construct_version_maps m vm = .ok out →
      ∀ p ∈ out, ∀ r ∈ p.2, dictGet m r.upgrader_name = some r.index) := by
  constructor
  · intro m vm hwf
    constructor
    · rintro ⟨nm, hne⟩
      unfold construct_version_maps at hne
      obtain ⟨p, hp, hns, n, hn, hcor⟩ := construct_version_map_ops_error hne
      obtain ⟨_, hget, _⟩ := (construct_one_record_keyError_iff m n nm).mp hcor
      obtain ⟨⟨es, hes, hsort⟩, _⟩ := sorted_version_map_mem hp
      refine ⟨(p.1, es), hes, hns, n, ?_, hget⟩
      rw [hsort] at hn
      exact (List.perm_insertionSort strLe es).subset hn
    · rintro ⟨p, hp, hns, n, hn, hget⟩
      cases hres : construct_version_maps m vm with
      | ok out =>
        exfalso
        obtain ⟨q, hq, hq1, hq2⟩ := construct_version_maps_ok_covers hres hp hns
        have hnin : n ∈ q.2.map UpgraderRecord.upgrader_name := by
          rw [hq2]
          exact (List.perm_insertionSort strLe p.2).symm.subset hn
        obtain ⟨r, hr, hrn⟩ := List.mem_map.mp hnin
        have hres2 := construct_version_maps_ok_resolved hres q hq r hr
        rw [hrn, hget] at hres2
        cases hres2
      | error e =>
        have hres2 := hres
        unfold construct_version_maps at hres2
        obtain ⟨p2, hp2, hns2, n2, hn2, hcor⟩ := construct_version_map_ops_error hres2
        rcases construct_one_record_error_cases hcor with he | ⟨nm, he⟩
        · exfalso
          subst he
          have hlen := (construct_one_record_indexError_iff m n2).mp hcor
          obtain ⟨⟨es, hes, hsort⟩, _⟩ := sorted_version_map_mem hp2
          have hn3 : n2 ∈ es := by
            rw [hsort] at hn2
            exact (List.perm_insertionSort strLe es).subset hn2
          have := hwf (p2.1, es) hes hns2 n2 hn3
          omega
        · subst he
          exact ⟨nm, rfl⟩
  · intro m vm out h
    exact construct_version_maps_ok_resolved h

/-- Witness for `C6_unresolved_reference_amended` at a concrete table
referencing the unknown upgrader name `a_b_0_1` under a non-skipped
operator. -/
theorem C6_unresolved_reference_amended_witness :
    ∃ nm, construct_version_maps [] [("aten::a", ["a_b_0_1"])] =
      .error (.keyError nm) :=
  (C6_unresolved_reference_amended.1 [] [("aten::a", ["a_b_0_1"])] (by decide)).mpr
    (by decide)

/-- Claim C3 (confirmed): for every input on which generation succeeds,
the emitted bytecode function table is sorted by upgrader name
ascending, the operator version map keys are emitted in ascending
order, and each operator's reference list is sorted by upgrader name
ascending; and for input description sets with distinct names and
version tables with distinct operator keys (the data model's uniqueness
invariants), the output is independent of the enumeration order of the
descriptions and of the version table. -/
theorem C3_sorted_and_order_independent :
    (∀ (ul : UpgraderDict) (vm : VersionMap) (art : GeneratedArtifact),
      generate ul vm = .ok art →
      (art.function_table.map RenderedFunction.upgrader_name).Pairwise strLe ∧
      (art.version_map.map Prod.fst).Pairwise strLe ∧
      ∀ p ∈ art.version_map,
        (p.2.map UpgraderRecord.upgrader_name).Pairwise strLe) ∧
    (∀ (ul ul2 : UpgraderDict) (vm vm2 : VersionMap),
      ul.Perm ul2 → (ul.map Prod.fst).Nodup →
      VMPerm vm vm2 → (vm.map Prod.fst).Nodup →
      generate ul vm = generate ul2 vm2) := by
  constructor
  · intro ul vm art h
    unfold generate at h
    obtain ⟨hv, ht⟩ := write_cpp_core_ok h
    refine ⟨?_, ?_, ?_⟩
    · rw [build_function_table_ok_names ht]
      refine (List.pairwise_map).mpr ?_
      exact List.Pairwise.sublist (List.filter_sublist _) (sort_upgrader_sorted ul)
    · have hv2 := hv
      unfold construct_version_maps at hv2
      have hshape := construct_version_map_ops_ok_shape hv2
      have h1 : art.version_map.map Prod.fst =
          ((sorted_version_map vm).filter
            (fun p => !(p.1 == "aten::full.names" || p.1 == "aten::full.out"))).map
              Prod.fst := by
        rw [← hshape, List.map_map]
        rfl
      rw [h1]
      refine (List.pairwise_map).mpr ?_
      exact List.Pairwise.sublist (List.filter_sublist _) (sorted_version_map_pairwise vm)
    · intro p hp
      have hv2 := hv
      unfold construct_version_maps at hv2
      obtain ⟨_, es, hes, hrec⟩ := construct_version_map_ops_ok_mem hv2 p hp
      obtain ⟨_, hpw⟩ := sorted_version_map_mem hes
      rw [construct_records_ok_names hrec]
      exact hpw
  · intro ul ul2 vm vm2 hperm hnd hvm hndv
    have hs : sort_upgrader ul = sort_upgrader ul2 := sort_upgrader_congr hperm hnd
    have hv : sorted_version_map vm = sorted_version_map vm2 :=
      sorted_version_map_congr hvm hndv
    show write_cpp_core (sort_upgrader ul) vm = write_cpp_core (sort_upgrader ul2) vm2
    rw [hs]
    unfold write_cpp_core construct_version_maps
    rw [hv]

/-- Witness for `C3_sorted_and_order_independent` on concrete reordered
inputs. -/
theorem C3_sorted_and_order_independent_witness :
    generate [("b_b_0_1", []), ("a_a_0_1", [])] [("op", ["b_b_0_1", "a_a_0_1"])] =
      generate [("a_a_0_1", []), ("b_b_0_1", [])] [("op", ["a_a_0_1", "b_b_0_1"])] :=
  C3_sorted_and_order_independent.2 _ _ _ _ (by decide) (by decide)
    ⟨[("op", ["b_b_0_1", "a_a_0_1"])], List.Perm.refl _,
      List.Forall₂.cons ⟨rfl, by decide⟩ List.Forall₂.nil⟩ (by decide)

/-- Claim C9, counterexample: the claim states that two descriptions
sharing a name, or two references for one operator sharing an upgrader
name, abort generation with a duplicate-name hard error.  The code
performs no duplicate check: on an input with both kinds of duplicates
generation succeeds, the function table keeps both descriptions, and
the shared name resolves to the index of its last occurrence for both
references. -/
theorem C9_counterexample :
    generate [("a_b_0_1", [("register_size", YamlVal.int 1)]),
              ("a_b_0_1", [("register_size", YamlVal.int 2)])]
        [("aten::a", ["a_b_0_1", "a_b_0_1"])] =
      Except.ok ⟨[("aten::a", [⟨"0", "1", "a_b_0_1", 1⟩, ⟨"0", "1", "a_b_0_1", 1⟩])],
        [⟨"a_b_0_1", ⟨"", "", "", "1", ""⟩⟩, ⟨"a_b_0_1", ⟨"", "", "", "2", ""⟩⟩]⟩ := by
  decide

/-- Claim C9, amended: no duplicate detection exists.  The index-map
builder is total and binds a name to the position of its most recent
occurrence (appending a description for name `n` binds `n` to the
previous sequence length), and the emitted function table keeps every
non-skipped description — duplicates included — so its length is the
length of the filtered (not deduplicated) input. -/
theorem C9_no_duplicate_check_amended :
    (∀ (ul : UpgraderDict) (n : String) (bc : Bytecode),
      dictGet (get_upgrader_bytecode_function_to_index_map (ul ++ [(n, bc)])) n =
        some ul.length) ∧
    (∀ (ul : UpgraderDict) (vm : VersionMap) (art : GeneratedArtifact),
      generate ul vm = .ok art →
      art.function_table.length =
        ((sort_upgrader ul).filter
          (fun e => !(e.1 == "full_names_0_4" || e.1 == "full_out_0_4"))).length) := by
  constructor
  · intro ul n bc
    unfold get_upgrader_bytecode_function_to_index_map
    rw [build_index_map_append, dictGet_dictInsert_self]
    simp
  · intro ul vm art h
    unfold generate at h
    obtain ⟨_, ht⟩ := write_cpp_core_ok h
    have h2 := congrArg List.length (build_function_table_ok_names ht)
    simpa using h2

/-- Witness for `C9_no_duplicate_check_amended` at the concrete
duplicated input. -/
theorem C9_no_duplicate_check_amended_witness :
    (⟨[("aten::a", [⟨"0", "1", "a_b_0_1", 1⟩, ⟨"0", "1", "a_b_0_1", 1⟩])],
      [⟨"a_b_0_1", ⟨"", "", "", "1", ""⟩⟩, ⟨"a_b_0_1", ⟨"", "", "", "2", ""⟩⟩]⟩ :
        GeneratedArtifact).function_table.length =
      ((sort_upgrader [("a_b_0_1", [("register_size", YamlVal.int 1)]),
          ("a_b_0_1", [("register_size", YamlVal.int 2)])]).filter
        (fun e => !(e.1 == "full_names_0_4" || e.1 == "full_out_0_4"))).length :=
  C9_no_duplicate_check_amended.2
    [("a_b_0_1", [("register_size", YamlVal.int 1)]),
     ("a_b_0_1", [("register_size", YamlVal.int 2)])]
    [("aten::a", ["a_b_0_1", "a_b_0_1"])] _ (by decide)

/-- Claim C10 (confirmed): the bytecode renderer never requires any of
the five field slots: a description with an empty bytecode mapping
renders with all five field strings empty, and for every successful
rendering each absent slot's string is the empty string — the declared
invariant that exactly one of each field is present is not enforced. -/
theorem C10_absent_fields_render_empty :
    (∀ name : String, render_upgrader_function name [] =
      .ok { upgrader_name := name, fields := emptyFields }) ∧
    (∀ (name : String) (bc : Bytecode) (f : RenderedFunction),
      render_upgrader_function name bc = .ok f →
      ("instructions" ∉ bc.map Prod.fst → f.fields.instruction_list = "") ∧
      ("constants" ∉ bc.map Prod.fst → f.fields.constant_list = "") ∧
      ("types" ∉ bc.map Prod.fst → f.fields.type_list = "") ∧
      ("operators" ∉ bc.map Prod.fst → f.fields.operator_list = "") ∧
      ("register_size" ∉ bc.map Prod.fst → f.fields.register_size = "")) := by
  constructor
  · intro name
    rfl
  · intro name bc f h
    obtain ⟨fs, hfs, h2⟩ := except_map_ok h
    cases h2
    have hu := apply_bytecode_fields_untouched hfs
    exact ⟨hu.1, hu.2.1, hu.2.2.1, hu.2.2.2.1, hu.2.2.2.2⟩

/-- Witness for `C10_absent_fields_render_empty` at a description
carrying only a `register_size` table. -/
theorem C10_absent_fields_render_empty_witness :
    ({ upgrader_name := "nm", fields := ⟨"", "", "", "1", ""⟩ } :
        RenderedFunction).fields.instruction_list = "" ∧
      ({ upgrader_name := "nm", fields := ⟨"", "", "", "1", ""⟩ } :
        RenderedFunction).fields.constant_list = "" ∧
      ({ upgrader_name := "nm", fields := ⟨"", "", "", "1", ""⟩ } :
        RenderedFunction).fields.type_list = "" ∧
      ({ upgrader_name := "nm", fields := ⟨"", "", "", "1", ""⟩ } :
        RenderedFunction).fields.operator_list = "" := by
  have h := C10_absent_fields_render_empty.2 "nm" [("register_size", YamlVal.int 1)]
    ⟨"nm", ⟨"", "", "", "1", ""⟩⟩ (by decide)
  exact ⟨h.1 (by decide), h.2.1 (by decide), h.2.2.1 (by decide), h.2.2.2.1 (by decide)⟩
